import Mathlib

/-!
Verification development for the natch_fine native layer of a ClickHouse
client: the typed column decoder / block materializer
(`src/native/natch_fine/src/select.cpp`) and the parameterized query binder
(`src/native/natch_fine/src/query.cpp`).

The embedding models Erlang NIF terms (`Term`), clickhouse-cpp columns by
their dynamic type and row contents (`Column`), and translates the three
decode code paths of select.cpp:

* `column_to_elixir_list` — the recursive switch on `Type::Code`;
* the `As<T>()` if/else-if cascade that is duplicated verbatim in
  `block_to_maps_impl`, `client_select_cols` and
  `client_select_cols_parameterized`, embedded once as
  `cascade_column_decode`;
* the per-block materializers `block_to_maps_impl` / `client_select` and
  the columnar accumulator of `client_select_cols`.

Machine integers are modelled as `Nat`/`Int`; 64-bit narrowing of the
decimal `Int128` is explicit modular arithmetic.  A C `double` never has
arithmetic performed on it by this code, so a float payload is carried as
an opaque `Nat` surrogate (its bit pattern); `enif_make_double` wraps it in
`Term.float`.
-/

/-- An Erlang term as produced by the `enif_make_*` calls of select.cpp:
integers (`enif_make_uint64`/`enif_make_int64` both make an Erlang
integer), doubles, binaries (byte lists), atoms, lists, tuples, and maps
(`enif_make_map_from_arrays`, kept as the positional key/value pairing the
source passes in). -/
inductive Term where
  | int (v : Int)
  | float (bits : Nat)
  | bytes (bs : List Nat)
  | atom (s : String)
  | list (ts : List Term)
  | tuple (ts : List Term)
  | map (pairs : List (Term × Term))
deriving Repr

/-- The two decode failures thrown by select.cpp:
`throw std::runtime_error("Unsupported column type in column_to_elixir_list")`
and `throw std::runtime_error("Unsupported LowCardinality inner type")`. -/
inductive DecodeError where
  | unsupportedType
  | unsupportedLowCardinalityInner
deriving Repr, DecidableEq

/-- One `ItemView` returned by `ColumnLowCardinality::GetItem`: either a
String dictionary entry, the Void (null) sentinel, or any other inner
dictionary type (which the source rejects). -/
inductive LCItem where
  | str (bs : List Nat)
  | voidItem
  | other
deriving Repr

/-- A clickhouse-cpp column, identified by its dynamic type (what the
`As<ColumnX>()` casts and `GetType().GetCode()` dispatch on) together with
its row contents:

* numeric / temporal columns carry their raw stored values
  (`ColumnDate::RawAt` day counts for `dateCol`);
* `float64Col`/`float32Col` carry the bit-pattern surrogate of the double
  that `At(i)` yields (a C `float` is widened to `double` at the
  `enif_make_double` call site, so the widened value's surrogate is
  stored);
* `stringCol` rows are owned byte sequences;
* `uuidCol` rows are the `(first, second)` 64-bit halves of a `UUID`;
* `decimalCol` rows are the `Int128` values of `ColumnDecimal::At`;
* `arrayCol` keeps, per row, the nested column slice `GetAsColumn(i)`
  exposes; `mapCol` likewise keeps the per-row key/value backing column;
* `tupleCol` keeps the element columns; `nullableCol` the null bitmap and
  the nested column; `lowCardCol` the per-row `GetItem` views;
* `enum8Col`/`enum16Col` keep the `NameAt(i)` textual names, which is all
  the decoder reads;
* `unsupportedCol n` stands for any column of length `n` whose dynamic
  type matches none of the handled kinds (e.g. Int128, IPv4, IPv6,
  FixedString). -/
inductive Column where
  | uint64Col (data : List Nat)
  | uint32Col (data : List Nat)
  | uint16Col (data : List Nat)
  | uint8Col (data : List Nat)
  | int64Col (data : List Int)
  | int32Col (data : List Int)
  | int16Col (data : List Int)
  | int8Col (data : List Int)
  | float64Col (data : List Nat)
  | float32Col (data : List Nat)
  | stringCol (data : List (List Nat))
  | dateTimeCol (data : List Nat)
  | dateTime64Col (data : List Int)
  | dateCol (data : List Nat)
  | uuidCol (data : List (Nat × Nat))
  | decimalCol (data : List Int)
  | arrayCol (rows : List Column)
  | tupleCol (elems : List Column)
  | mapCol (rows : List Column)
  | enum8Col (names : List (List Nat))
  | enum16Col (names : List (List Nat))
  | lowCardCol (items : List LCItem)
  | nullableCol (nulls : List Bool) (nested : Column)
  | unsupportedCol (len : Nat)
deriving Repr

namespace Column

mutual

/-- A structural measure used to justify the recursion of the decoder:
composite columns that the decoder re-enters through a freshly built
column (`Slice`, `GetAsColumn`, `At`) weigh two more than their children
so that slicing (which never increases the weight) stays below them. -/
def weight : Column → Nat
  | uint64Col _ => 1
  | uint32Col _ => 1
  | uint16Col _ => 1
  | uint8Col _ => 1
  | int64Col _ => 1
  | int32Col _ => 1
  | int16Col _ => 1
  | int8Col _ => 1
  | float64Col _ => 1
  | float32Col _ => 1
  | stringCol _ => 1
  | dateTimeCol _ => 1
  | dateTime64Col _ => 1
  | dateCol _ => 1
  | uuidCol _ => 1
  | decimalCol _ => 1
  | arrayCol rows => 2 + weightList rows
  | tupleCol elems => 2 + weightList elems
  | mapCol rows => 2 + weightList rows
  | enum8Col _ => 1
  | enum16Col _ => 1
  | lowCardCol _ => 1
  | nullableCol _ nested => 3 + weight nested
  | unsupportedCol _ => 1

/-- Total weight of a list of columns (each list node also counts one, so
the weight of a list dominates its length). -/
def weightList : List Column → Nat
  | [] => 0
  | c :: cs => 1 + weight c + weightList cs

end

/-- `Column::Size()`: the number of rows.  For a tuple this is the size of
the first element column (clickhouse-cpp returns 0 for an empty tuple);
for a nullable it is the nested column's size. -/
def size : Column → Nat
  | uint64Col d => d.length
  | uint32Col d => d.length
  | uint16Col d => d.length
  | uint8Col d => d.length
  | int64Col d => d.length
  | int32Col d => d.length
  | int16Col d => d.length
  | int8Col d => d.length
  | float64Col d => d.length
  | float32Col d => d.length
  | stringCol d => d.length
  | dateTimeCol d => d.length
  | dateTime64Col d => d.length
  | dateCol d => d.length
  | uuidCol d => d.length
  | decimalCol d => d.length
  | arrayCol rows => rows.length
  | tupleCol [] => 0
  | tupleCol (e :: _) => size e
  | mapCol rows => rows.length
  | enum8Col d => d.length
  | enum16Col d => d.length
  | lowCardCol items => items.length
  | nullableCol _ nested => size nested
  | unsupportedCol n => n

mutual

/-- `Column::Slice(off, len)`: the column restricted to the row range
`[off, off+len)`.  Every clickhouse-cpp column type slices its row
storage; a tuple slices each element column, a nullable slices both the
bitmap and the nested column. -/
def slice : Column → Nat → Nat → Column
  | uint64Col d, off, len => uint64Col ((d.drop off).take len)
  | uint32Col d, off, len => uint32Col ((d.drop off).take len)
  | uint16Col d, off, len => uint16Col ((d.drop off).take len)
  | uint8Col d, off, len => uint8Col ((d.drop off).take len)
  | int64Col d, off, len => int64Col ((d.drop off).take len)
  | int32Col d, off, len => int32Col ((d.drop off).take len)
  | int16Col d, off, len => int16Col ((d.drop off).take len)
  | int8Col d, off, len => int8Col ((d.drop off).take len)
  | float64Col d, off, len => float64Col ((d.drop off).take len)
  | float32Col d, off, len => float32Col ((d.drop off).take len)
  | stringCol d, off, len => stringCol ((d.drop off).take len)
  | dateTimeCol d, off, len => dateTimeCol ((d.drop off).take len)
  | dateTime64Col d, off, len => dateTime64Col ((d.drop off).take len)
  | dateCol d, off, len => dateCol ((d.drop off).take len)
  | uuidCol d, off, len => uuidCol ((d.drop off).take len)
  | decimalCol d, off, len => decimalCol ((d.drop off).take len)
  | arrayCol rows, off, len => arrayCol ((rows.drop off).take len)
  | tupleCol elems, off, len => tupleCol (sliceList elems off len)
  | mapCol rows, off, len => mapCol ((rows.drop off).take len)
  | enum8Col d, off, len => enum8Col ((d.drop off).take len)
  | enum16Col d, off, len => enum16Col ((d.drop off).take len)
  | lowCardCol items, off, len => lowCardCol ((items.drop off).take len)
  | nullableCol nulls nested, off, len =>
      nullableCol ((nulls.drop off).take len) (slice nested off len)
  | unsupportedCol n, off, len => unsupportedCol (min len (n - off))

/-- Slice every column in a list (tuple elements). -/
def sliceList : List Column → Nat → Nat → List Column
  | [], _, _ => []
  | c :: cs, off, len => slice c off len :: sliceList cs off len

end

theorem weight_pos (c : Column) : 1 ≤ c.weight := by
  cases c <;> simp [weight] <;> omega

theorem weight_le_weightList_of_mem {c : Column} {l : List Column}
    (h : c ∈ l) : c.weight ≤ weightList l := by
  induction l with
  | nil => cases h
  | cons a l ih =>
      simp only [weightList]
      rcases List.mem_cons.mp h with h' | h'
      · subst h'; omega
      · have := ih h'; omega

theorem weightList_take_le (l : List Column) (n : Nat) :
    weightList (l.take n) ≤ weightList l := by
  induction l generalizing n with
  | nil => simp [weightList]
  | cons a l ih =>
      cases n with
      | zero => simp [weightList]
      | succ n =>
          simp only [List.take_succ_cons, weightList]
          have := ih n; omega

theorem weightList_drop_le (l : List Column) (n : Nat) :
    weightList (l.drop n) ≤ weightList l := by
  induction l generalizing n with
  | nil => simp [weightList]
  | cons a l ih =>
      cases n with
      | zero => simp
      | succ n =>
          simp only [List.drop_succ_cons, weightList]
          have := ih n; have := weight_pos a; omega

mutual

theorem weight_slice_le (c : Column) (off len : Nat) :
    (c.slice off len).weight ≤ c.weight := by
  cases c with
  | tupleCol elems =>
      simp only [slice, weight]
      have := weightList_sliceList_le elems off len
      omega
  | nullableCol nulls nested =>
      simp only [slice, weight]
      have := weight_slice_le nested off len
      omega
  | arrayCol rows =>
      simp only [slice, weight]
      have h1 := weightList_take_le (rows.drop off) len
      have h2 := weightList_drop_le rows off
      omega
  | mapCol rows =>
      simp only [slice, weight]
      have h1 := weightList_take_le (rows.drop off) len
      have h2 := weightList_drop_le rows off
      omega
  | _ => simp [slice, weight]

theorem weightList_sliceList_le (l : List Column) (off len : Nat) :
    weightList (sliceList l off len) ≤ weightList l := by
  cases l with
  | nil => simp [sliceList]
  | cons c cs =>
      simp only [sliceList, weightList]
      have h1 := weight_slice_le c off len
      have h2 := weightList_sliceList_le cs off len
      omega

end

end Column

/-! ### Exception-propagating loops

The C++ code accumulates results in a `std::vector` inside loops from which
a thrown `std::runtime_error` escapes, aborting the whole call.  `mapME`
and `foldME` are that control flow over `Except`. -/

/-- Map an exception-throwing body over a list, stopping at the first
error (a C++ loop whose body may `throw`). -/
def mapME {α β ε : Type} (f : α → Except ε β) : List α → Except ε (List β)
  | [] => .ok []
  | a :: l => do
      let b ← f a
      let bs ← mapME f l
      .ok (b :: bs)

/-- Fold an exception-throwing body over a list (a stateful C++ loop whose
body may `throw`). -/
def foldME {σ α ε : Type} (f : σ → α → Except ε σ) (init : σ) :
    List α → Except ε σ
  | [] => .ok init
  | a :: l => do
      let s ← f init a
      foldME f s l

theorem mapME_ok_length {α β ε : Type} {f : α → Except ε β} :
    ∀ {l : List α} {out : List β}, mapME f l = .ok out → out.length = l.length := by
  intro l
  induction l with
  | nil => intro out h; simp [mapME] at h; simp [← h]
  | cons a l ih =>
      intro out h
      simp only [mapME, bind, Except.bind] at h
      cases hfa : f a with
      | error e => rw [hfa] at h; cases h
      | ok b =>
          rw [hfa] at h
          cases hml : mapME f l with
          | error e => rw [hml] at h; cases h
          | ok bs =>
              rw [hml] at h
              cases h
              simp [ih hml]

theorem mapME_ok_of_forall {α β ε : Type} {f : α → Except ε β} {g : α → β} :
    ∀ {l : List α}, (∀ a ∈ l, f a = .ok (g a)) → mapME f l = .ok (l.map g) := by
  intro l
  induction l with
  | nil => intro _; simp [mapME]
  | cons a l ih =>
      intro h
      simp only [mapME, bind, Except.bind, h a (List.mem_cons_self a l),
        ih (fun x hx => h x (List.mem_cons_of_mem a hx)), List.map_cons]

theorem mapME_mem_of_ok {α β ε : Type} {f : α → Except ε β} {p : β → Prop} :
    ∀ {l : List α} {out : List β}, mapME f l = .ok out →
      (∀ a ∈ l, ∀ b, f a = .ok b → p b) → ∀ b ∈ out, p b := by
  intro l
  induction l with
  | nil => intro out h _ b hb; simp [mapME] at h; subst h; cases hb
  | cons a l ih =>
      intro out h hp b hb
      simp only [mapME, bind, Except.bind] at h
      cases hfa : f a with
      | error e => rw [hfa] at h; cases h
      | ok b0 =>
          rw [hfa] at h
          cases hml : mapME f l with
          | error e => rw [hml] at h; cases h
          | ok bs =>
              rw [hml] at h
              cases h
              rcases List.mem_cons.mp hb with h' | h'
              · subst h'; exact hp a (List.mem_cons_self a l) b hfa
              · exact ih hml (fun x hx => hp x (List.mem_cons_of_mem a hx)) b h'

theorem mapME_ok_getElem {α β ε : Type} {f : α → Except ε β} :
    ∀ {l : List α} {out : List β}, mapME f l = .ok out →
      ∀ i (hi : i < l.length) (ho : i < out.length), f l[i] = .ok out[i] := by
  intro l
  induction l with
  | nil => intro out _ i hi; cases hi
  | cons a l ih =>
      intro out h i hi ho
      simp only [mapME, bind, Except.bind] at h
      cases hfa : f a with
      | error e => rw [hfa] at h; cases h
      | ok b0 =>
          rw [hfa] at h
          cases hml : mapME f l with
          | error e => rw [hml] at h; cases h
          | ok bs =>
              rw [hml] at h
              cases h
              cases i with
              | zero => simpa using hfa
              | succ i =>
                  have hi' : i < l.length := by simpa using hi
                  have ho' : i < bs.length := by simpa using ho
                  simpa using ih hml i hi' ho'

theorem mapME_congr {α β ε : Type} {f g : α → Except ε β} :
    ∀ {l : List α}, (∀ a ∈ l, f a = g a) → mapME f l = mapME g l := by
  intro l
  induction l with
  | nil => intro _; rfl
  | cons a l ih =>
      intro h
      simp only [mapME, h a (List.mem_cons_self a l),
        ih (fun x hx => h x (List.mem_cons_of_mem a hx))]

/-! ### Formatting and narrowing primitives of select.cpp -/

/-- The byte `snprintf`'s `%x` emits for one hex digit (lowercase). -/
def hexDigitChar (n : Nat) : Nat := if n < 10 then 48 + n else 87 + n

/-- Exactly `w` lowercase hex digits of `n`, zero padded on the left:
`snprintf`'s `%0[w]llx` for an argument already masked below `16^w`
(every call site in `format_uuid_to_buffer` masks its argument). -/
def hexFixed : Nat → Nat → List Nat
  | 0, _ => []
  | w + 1, n => hexFixed w (n / 16) ++ [hexDigitChar (n % 16)]

/-- `format_uuid_to_buffer` (select.cpp:28-38): the 36 bytes
`snprintf(buffer, 37, "%08llx-%04llx-%04llx-%04llx-%012llx", ...)`
produces from the two 64-bit halves of a `UUID` (45 is the hyphen). -/
def format_uuid_to_buffer (high low : Nat) : List Nat :=
  hexFixed 8 ((high >>> 32) &&& 0xFFFFFFFF) ++ [45] ++
  hexFixed 4 ((high >>> 16) &&& 0xFFFF) ++ [45] ++
  hexFixed 4 (high &&& 0xFFFF) ++ [45] ++
  hexFixed 4 ((low >>> 48) &&& 0xFFFF) ++ [45] ++
  hexFixed 12 (low &&& 0xFFFFFFFFFFFF)

/-- `static_cast<int64_t>(value)` on an `Int128`: reduce modulo `2^64` and
reinterpret as a signed 64-bit two's-complement value. -/
def int64OfInt128 (v : Int) : Int :=
  let r := v % (2 ^ 64 : Int)
  if r < 2 ^ 63 then r else r - 2 ^ 64

/-- The ASCII codes of a string, for writing expected byte sequences. -/
def strBytes (s : String) : List Nat := s.data.map Char.toNat

theorem Column.weight_getD_le (l : List Column) (j : Nat) :
    ((l[j]?).getD (Column.unsupportedCol 0)).weight ≤ Column.weightList l + 1 := by
  induction l generalizing j with
  | nil => simp [Column.weight, Column.weightList]
  | cons c cs ih =>
      cases j with
      | zero =>
          simp only [List.getElem?_cons_zero, Option.getD_some, Column.weightList]
          omega
      | succ j =>
          simp only [List.getElem?_cons_succ, Column.weightList]
          have := ih j
          omega

/-- Convert one `ItemView` of a LowCardinality column to a term
(select.cpp:309-327 loop body): a String entry becomes a copied binary, a
Void entry the atom `nil`, anything else throws. -/
def lcItemTerm : LCItem → Except DecodeError Term
  | .str s => .ok (Term.bytes s)
  | .voidItem => .ok (Term.atom "nil")
  | .other => .error .unsupportedLowCardinalityInner

mutual

/-- `column_to_elixir_list` (select.cpp:42-396): recursively convert a
column to the list of its rows' terms, dispatching on the column's type
code.  `count` in the source is `col->Size()`; each branch walks the rows
in order.  The default case throws `UnsupportedType`. -/
def column_to_elixir_list : Column → Except DecodeError (List Term)
  | .uint64Col d => .ok (d.map fun v => Term.int (Int.ofNat v))
  | .uint32Col d => .ok (d.map fun v => Term.int (Int.ofNat v))
  | .uint16Col d => .ok (d.map fun v => Term.int (Int.ofNat v))
  | .uint8Col d => .ok (d.map fun v => Term.int (Int.ofNat v))
  | .int64Col d => .ok (d.map Term.int)
  | .int32Col d => .ok (d.map Term.int)
  | .int16Col d => .ok (d.map Term.int)
  | .int8Col d => .ok (d.map Term.int)
  | .float64Col d => .ok (d.map Term.float)
  | .float32Col d => .ok (d.map Term.float)
  | .stringCol d => .ok (d.map Term.bytes)
  | .dateTimeCol d => .ok (d.map fun v => Term.int (Int.ofNat v))
  | .dateTime64Col d => .ok (d.map Term.int)
  | .dateCol d => .ok (d.map fun v => Term.int (Int.ofNat v))
  | .uuidCol d => .ok (d.map fun u => Term.bytes (format_uuid_to_buffer u.1 u.2))
  | .decimalCol d => .ok (d.map fun v => Term.int (int64OfInt128 v))
  | .arrayCol rows => ctel_array_rows rows
  | .tupleCol elems => do
      let elemLists ← ctel_each elems
      .ok ((List.range (Column.size (.tupleCol elems))).map fun i =>
        Term.tuple (elemLists.map fun l => l.getD i (Term.atom "error")))
  | .mapCol rows => ctel_map_rows rows
  | .enum8Col names => .ok (names.map Term.bytes)
  | .enum16Col names => .ok (names.map Term.bytes)
  | .lowCardCol items => mapME lcItemTerm items
  | .nullableCol nulls nst => ctel_nullable nulls nst
  | .unsupportedCol _ => .error .unsupportedType
termination_by c => (c.weight, 0)
decreasing_by
  all_goals apply Prod.Lex.left
  all_goals simp [Column.weight, Column.weightList]
  all_goals omega

/-- The Nullable branch (select.cpp:330-388): check the nested column's
dynamic type once; the four common kinds (UInt64, Int64, Float64, String)
get direct per-row extraction guarded by `IsNull(i)`; anything else takes
the slice-one-row-and-recurse fallback.  `count` is the nullable column's
`Size()`, which is the nested column's size. -/
def ctel_nullable (nulls : List Bool) : Column → Except DecodeError (List Term)
  | .uint64Col d => .ok ((List.range d.length).map fun i =>
      if nulls.getD i false then Term.atom "nil"
      else Term.int (Int.ofNat (d.getD i 0)))
  | .int64Col d => .ok ((List.range d.length).map fun i =>
      if nulls.getD i false then Term.atom "nil"
      else Term.int (d.getD i 0))
  | .float64Col d => .ok ((List.range d.length).map fun i =>
      if nulls.getD i false then Term.atom "nil"
      else Term.float (d.getD i 0))
  | .stringCol d => .ok ((List.range d.length).map fun i =>
      if nulls.getD i false then Term.atom "nil"
      else Term.bytes (d.getD i []))
  | nst => ctel_nullable_fallback nulls nst (List.range (Column.size nst))
termination_by nst => (nst.weight + 2, 0)
decreasing_by
  all_goals apply Prod.Lex.left
  all_goals omega

/-- The Array branch loop (select.cpp:181-184): one recursive decode of
`GetAsColumn(i)` per row, each wrapped as a list term. -/
def ctel_array_rows : List Column → Except DecodeError (List Term)
  | [] => .ok []
  | r :: rest => do
      let l ← column_to_elixir_list r
      let ts ← ctel_array_rows rest
      .ok (Term.list l :: ts)
termination_by rows => (Column.weightList rows + 1, 0)
decreasing_by
  all_goals apply Prod.Lex.left
  all_goals simp [Column.weightList]
  all_goals omega

/-- The Tuple branch pre-conversion loop (select.cpp:196-212): decode each
element column once in full. -/
def ctel_each : List Column → Except DecodeError (List (List Term))
  | [] => .ok []
  | c :: rest => do
      let l ← column_to_elixir_list c
      let ls ← ctel_each rest
      .ok (l :: ls)
termination_by cols => (Column.weightList cols + 1, 0)
decreasing_by
  all_goals apply Prod.Lex.left
  all_goals simp [Column.weightList]
  all_goals omega

/-- The Map branch loop (select.cpp:229-277): for each row, if
`GetAsColumn(i)` casts to a `ColumnTuple`, decode its column 0 (keys) and
column 1 (values) and zip `map_size = keys->Size()` pairs into a map term;
otherwise substitute an empty map.  `At(0)`/`At(1)` on a tuple with fewer
element columns reads out of bounds in the source; the model supplies a
poison column that fails to decode. -/
def ctel_map_rows : List Column → Except DecodeError (List Term)
  | [] => .ok []
  | row :: rest => do
      let t ←
        match row with
        | .tupleCol es => do
            let keyTerms ← column_to_elixir_list (es.getD 0 (.unsupportedCol 0))
            let valueTerms ← column_to_elixir_list (es.getD 1 (.unsupportedCol 0))
            let mapSize := Column.size (es.getD 0 (.unsupportedCol 0))
            .ok (Term.map ((keyTerms.take mapSize).zip (valueTerms.take mapSize)))
        | _ => .ok (Term.map [])
      let ts ← ctel_map_rows rest
      .ok (t :: ts)
termination_by rows => (Column.weightList rows + 1, 0)
decreasing_by
  all_goals apply Prod.Lex.left
  all_goals simp [Column.weight, Column.weightList]
  all_goals first
    | omega
    | exact lt_of_le_of_lt (Column.weight_getD_le _ _) (by omega)

/-- The Nullable fallback loop (select.cpp:372-386): for each row index,
null rows yield the atom `nil`; otherwise slice a single row out of the
nested column, recursively decode the one-row slice and take its head
(pushing the atom `error` if the decoded list is empty). -/
def ctel_nullable_fallback (nulls : List Bool) (nst : Column) :
    List Nat → Except DecodeError (List Term)
  | [] => .ok []
  | i :: rest => do
      let t ←
        if nulls.getD i false then .ok (Term.atom "nil")
        else do
          let l ← column_to_elixir_list (nst.slice i 1)
          match l with
          | h :: _ => .ok h
          | [] => .ok (Term.atom "error")
      let ts ← ctel_nullable_fallback nulls nst rest
      .ok (t :: ts)
termination_by idxs => (nst.weight + 1, idxs.length)
decreasing_by
  all_goals first
    | (apply Prod.Lex.right; simp)
    | (apply Prod.Lex.left
       exact lt_of_le_of_lt (Column.weight_slice_le _ _ _) (by omega))

end

/-- One row of a Map column (the body shared by the three duplicated Map
loops, select.cpp:229-277, 505-547, 938-979): if the row's backing column
casts to a `ColumnTuple`, decode its column 0 (keys) and column 1 (values)
in full and zip `map_size = keys->Size()` pairs into a map term; any other
backing structure gets an empty map substituted.  `At(0)`/`At(1)` on a
tuple with fewer element columns reads out of bounds in the source; the
model supplies a poison column that fails to decode. -/
def decode_map_row : Column → Except DecodeError Term
  | .tupleCol es => do
      let keyTerms ← column_to_elixir_list (es.getD 0 (.unsupportedCol 0))
      let valueTerms ← column_to_elixir_list (es.getD 1 (.unsupportedCol 0))
      let mapSize := Column.size (es.getD 0 (.unsupportedCol 0))
      .ok (Term.map ((keyTerms.take mapSize).zip (valueTerms.take mapSize)))
  | _ => .ok (Term.map [])

/-- The Nullable fallback loop of the materializer cascades
(select.cpp:658-673, 1086-1101, 1401-1416), bounded by the block's
`row_count`: null rows give `nil`, other rows slice one row out of the
nested column and recursively decode it. -/
def cascade_nullable_fallback (nulls : List Bool) (nst : Column) (rc : Nat) :
    Except DecodeError (List Term) :=
  mapME (fun i =>
    if nulls.getD i false then .ok (Term.atom "nil")
    else do
      let l ← column_to_elixir_list (nst.slice i 1)
      match l with
      | h :: _ => .ok h
      | [] => .ok (Term.atom "error"))
    (List.range rc)

/-- The Nullable branch of the materializer cascades (select.cpp:617-674
and the identical copies at 1045-1101, 1361-1416): check the nested type
once, loop `row_count` times with per-row `IsNull`, falling back to the
slice-and-recurse path for uncommon nested kinds. -/
def cascade_nullable (rc : Nat) (nulls : List Bool) :
    Column → Except DecodeError (List Term)
  | .uint64Col d => .ok ((List.range rc).map fun i =>
      if nulls.getD i false then Term.atom "nil"
      else Term.int (Int.ofNat (d.getD i 0)))
  | .int64Col d => .ok ((List.range rc).map fun i =>
      if nulls.getD i false then Term.atom "nil"
      else Term.int (d.getD i 0))
  | .float64Col d => .ok ((List.range rc).map fun i =>
      if nulls.getD i false then Term.atom "nil"
      else Term.float (d.getD i 0))
  | .stringCol d => .ok ((List.range rc).map fun i =>
      if nulls.getD i false then Term.atom "nil"
      else Term.bytes (d.getD i []))
  | nst => cascade_nullable_fallback nulls nst rc

/-- The `As<T>()` if/else-if cascade that extracts one column's values,
duplicated verbatim in `block_to_maps_impl` (select.cpp:419-674),
`client_select_cols` (856-1101) and `client_select_cols_parameterized`
(1179-1416); embedded once here.  Unlike `column_to_elixir_list` it loops
`row_count` times (the block's row count, passed as `rc`) rather than
`col->Size()`, and — crucially — it has **no final else branch**: a column
whose dynamic type matches none of the casts silently contributes an empty
value vector.  Rows the source would read out of bounds (when `rc` exceeds
the column's size) are modelled by `List.getD` defaults. -/
def cascade_column_decode (rc : Nat) : Column → Except DecodeError (List Term)
  | .uint64Col d => .ok ((List.range rc).map fun i => Term.int (Int.ofNat (d.getD i 0)))
  | .uint32Col d => .ok ((List.range rc).map fun i => Term.int (Int.ofNat (d.getD i 0)))
  | .uint16Col d => .ok ((List.range rc).map fun i => Term.int (Int.ofNat (d.getD i 0)))
  | .uint8Col d => .ok ((List.range rc).map fun i => Term.int (Int.ofNat (d.getD i 0)))
  | .int64Col d => .ok ((List.range rc).map fun i => Term.int (d.getD i 0))
  | .int32Col d => .ok ((List.range rc).map fun i => Term.int (d.getD i 0))
  | .int16Col d => .ok ((List.range rc).map fun i => Term.int (d.getD i 0))
  | .int8Col d => .ok ((List.range rc).map fun i => Term.int (d.getD i 0))
  | .float64Col d => .ok ((List.range rc).map fun i => Term.float (d.getD i 0))
  | .float32Col d => .ok ((List.range rc).map fun i => Term.float (d.getD i 0))
  | .stringCol d => .ok ((List.range rc).map fun i => Term.bytes (d.getD i []))
  | .dateTimeCol d => .ok ((List.range rc).map fun i => Term.int (Int.ofNat (d.getD i 0)))
  | .dateTime64Col d => .ok ((List.range rc).map fun i => Term.int (d.getD i 0))
  | .dateCol d => .ok ((List.range rc).map fun i => Term.int (Int.ofNat (d.getD i 0)))
  | .uuidCol d => .ok ((List.range rc).map fun i =>
      Term.bytes (format_uuid_to_buffer (d.getD i (0, 0)).1 (d.getD i (0, 0)).2))
  | .decimalCol d => .ok ((List.range rc).map fun i => Term.int (int64OfInt128 (d.getD i 0)))
  | .arrayCol rows => mapME (fun i => do
      let l ← column_to_elixir_list (rows.getD i (.unsupportedCol 0))
      .ok (Term.list l)) (List.range rc)
  | .mapCol rows =>
      mapME (fun i => decode_map_row (rows.getD i (.unsupportedCol 0))) (List.range rc)
  | .tupleCol elems => do
      let elemLists ← mapME column_to_elixir_list elems
      .ok ((List.range rc).map fun i =>
        Term.tuple (elemLists.map fun l => l.getD i (Term.atom "error")))
  | .enum8Col names => .ok ((List.range rc).map fun i => Term.bytes (names.getD i []))
  | .enum16Col names => .ok ((List.range rc).map fun i => Term.bytes (names.getD i []))
  | .lowCardCol items =>
      mapME (fun i => lcItemTerm (items.getD i (.str []))) (List.range rc)
  | .nullableCol nulls nst => cascade_nullable rc nulls nst
  | .unsupportedCol _ => .ok []

/-! ### Blocks and the two materializers -/

/-- A `Block`: an ordered sequence of named columns, as delivered to the
per-chunk callback by `Client::Select`. -/
structure Block where
  cols : List (String × Column)

/-- `Block::GetRowCount()`: the row count of the block, which is the size
of its first column (0 when the block has no columns). -/
def Block.rowCount (b : Block) : Nat :=
  match b.cols with
  | [] => 0
  | nc :: _ => nc.2.size

/-- The term standing for the out-of-bounds `std::vector` read
`col_data[c][r]` that `block_to_maps_impl` performs when a column's value
vector came out shorter than `row_count` (undefined behavior in the
source). -/
def oobTerm : Term := Term.atom "undef"

/-- `block_to_maps_impl` (select.cpp:399-705): skip empty blocks; extract
every column's values through the cascade; compute the column-name atoms
once; then build one map per row by reading row `r` of every extracted
column. -/
def block_to_maps_impl (b : Block) : Except DecodeError (List Term) :=
  if b.rowCount = 0 then .ok []
  else do
    let colData ← mapME (fun nc => cascade_column_decode b.rowCount nc.2) b.cols
    let names := b.cols.map Prod.fst
    .ok ((List.range b.rowCount).map fun r =>
      Term.map ((names.map Term.atom).zip (colData.map fun cd => cd.getD r oobTerm)))

/-- `client_select` (select.cpp:733-753) and, identically from the block
stream onward, `client_select_parameterized` (758-781): run
`block_to_maps_impl` on each block the Executor delivers, in arrival
order, and return the concatenated row list.  A decode exception thrown
inside the callback aborts the whole call. -/
def client_select (blocks : List Block) : Except DecodeError (List Term) := do
  let perBlock ← mapME block_to_maps_impl blocks
  .ok perBlock.flatten

/-- The accumulator state of `client_select_cols`: the column names and
key atoms captured on the first block with rows, and the per-column
accumulated values. -/
structure ColsAcc where
  names : List String
  acc : List (List Term)
  firstBlockDone : Bool

/-- Append each decoded column chunk to its accumulator
(`all_columns[c].insert(all_columns[c].end(), ...)` for `c` below the
block's column count).  A chunk index beyond the accumulator list would be
an out-of-bounds write in the source; the model drops it. -/
def appendCols : List (List Term) → List (List Term) → List (List Term)
  | acc, [] => acc
  | [], _ :: _ => []
  | a :: acc, d :: dec => (a ++ d) :: appendCols acc dec

/-- One callback invocation of `client_select_cols` (select.cpp:821-1111):
skip empty blocks; on the first block with rows capture the column names
(and create their atoms); then extract every column of this block through
the cascade and append to the accumulators. -/
def select_cols_block (st : ColsAcc) (b : Block) : Except DecodeError ColsAcc :=
  if b.rowCount = 0 then .ok st
  else do
    let st1 := if st.firstBlockDone then st
      else { names := b.cols.map Prod.fst, acc := b.cols.map fun _ => [],
             firstBlockDone := true }
    let dec ← mapME (fun nc => cascade_column_decode b.rowCount nc.2) b.cols
    .ok { st1 with acc := appendCols st1.acc dec }

/-- `client_select_cols` (select.cpp:810-1127) and, identically from the
block stream onward, `client_select_cols_parameterized` (1132-1446): fold
the per-block callback over the delivered blocks, then pair each captured
column name with its accumulated value list (the source builds the map
from `key_atoms` and the accumulated vectors; an all-empty stream yields
an empty map). -/
def client_select_cols (blocks : List Block) :
    Except DecodeError (List (String × List Term)) := do
  let st ← foldME select_cols_block ⟨[], [], false⟩ blocks
  .ok (st.names.zip st.acc)

/-! ### The parameterized query binder (query.cpp)

`Query::SetParam(name, value)` stores `value` under `name` in the query's
parameter map (`std::unordered_map` assignment: insert or overwrite); the
SQL template string given to the `Query` constructor is never touched by
any bind.  A `QueryParamValue` is an optional string: a textual encoding
or the NULL marker (`std::nullopt`, distinct from any string).  The two
float binds encode via `std::to_string` on a `double` (for Float32 after
`static_cast<float>`); since no claim depends on those digits and a C
`double` is carried as an opaque surrogate, their encodings are carried as
dedicated constructors holding the numeric payload. -/
inductive ParamValue where
  | enc (s : String)
  | encFloat64 (bits : Nat)
  | encFloat32 (bits : Nat)
  | nullMarker
deriving Repr, DecidableEq

/-- A `clickhouse::Query`: the SQL template it was constructed from (with
`{name:Type}` placeholders) and its named-parameter map.  The NIF wraps it
as a mutable resource; the model returns the updated value. -/
structure Query where
  sql : String
  params : List (String × ParamValue)
deriving Repr, DecidableEq

/-- Insert-or-overwrite in the parameter map (`params_[name] = value`). -/
def upsertParam : List (String × ParamValue) → String → ParamValue →
    List (String × ParamValue)
  | [], n, v => [(n, v)]
  | (m, w) :: rest, n, v =>
      if m = n then (n, v) :: rest else (m, w) :: upsertParam rest n v

/-- `Query::SetParam`. -/
def Query.setParam (q : Query) (name : String) (v : ParamValue) : Query :=
  { q with params := upsertParam q.params name v }

/-- `query_create` (query.cpp:30-39): construct a Query from the SQL
template; no parameters are bound yet. -/
def query_create (sql : String) : Query := ⟨sql, []⟩

/-- `query_bind_uint64` (query.cpp:46-58): `SetParam(name, std::to_string(value))`. -/
def query_bind_uint64 (q : Query) (name : String) (value : Nat) : Query :=
  q.setParam name (.enc (toString value))

/-- `query_bind_int64` (query.cpp:61-73): `SetParam(name, std::to_string(value))`. -/
def query_bind_int64 (q : Query) (name : String) (value : Int) : Query :=
  q.setParam name (.enc (toString value))

/-- `query_bind_int32` (query.cpp:76-88): the value arrives as `int64_t`
and is passed to `std::to_string` unchanged — no 32-bit cast or range
check appears in the body. -/
def query_bind_int32 (q : Query) (name : String) (value : Int) : Query :=
  q.setParam name (.enc (toString value))

/-- `query_bind_uint32` (query.cpp:90-103): the value arrives as `int64_t`
and is passed to `std::to_string` unchanged — no 32-bit cast or range
check appears in the body. -/
def query_bind_uint32 (q : Query) (name : String) (value : Int) : Query :=
  q.setParam name (.enc (toString value))

/-- `query_bind_float64` (query.cpp:110-122): `SetParam(name,
std::to_string(value))` on the double payload. -/
def query_bind_float64 (q : Query) (name : String) (bits : Nat) : Query :=
  q.setParam name (.encFloat64 bits)

/-- `query_bind_float32` (query.cpp:125-139): `static_cast<float>(value)`
then `std::to_string`; the 32-bit path is marked by its constructor. -/
def query_bind_float32 (q : Query) (name : String) (bits : Nat) : Query :=
  q.setParam name (.encFloat32 bits)

/-- `query_bind_string` (query.cpp:146-158): `SetParam(name, value)` — the
string value is stored verbatim as the parameter encoding. -/
def query_bind_string (q : Query) (name value : String) : Query :=
  q.setParam name (.enc value)

/-- `query_bind_datetime` (query.cpp:165-177). -/
def query_bind_datetime (q : Query) (name : String) (timestamp : Int) : Query :=
  q.setParam name (.enc (toString timestamp))

/-- `query_bind_date` (query.cpp:181-193). -/
def query_bind_date (q : Query) (name : String) (days : Int) : Query :=
  q.setParam name (.enc (toString days))

/-- `query_bind_datetime64` (query.cpp:196-208). -/
def query_bind_datetime64 (q : Query) (name : String) (microseconds : Int) : Query :=
  q.setParam name (.enc (toString microseconds))

/-- `query_bind_null` (query.cpp:215-227): `SetParam(name,
QueryParamValue())` — the empty optional is the NULL marker. -/
def query_bind_null (q : Query) (name : String) : Query :=
  q.setParam name .nullMarker

/-! ### Predicates and the spec-side pivot -/

/-- Whether a column's dynamic type is matched by some branch of the
materializer cascades (everything except the unhandled kinds). -/
def Column.topSupported : Column → Bool
  | .unsupportedCol _ => false
  | _ => true

/-- Nested-column kinds whose decode can never place the atom `nil` at a
top-level row: everything except a dictionary column (whose Void entries
decode to `nil`) and another nullable.  ClickHouse types nested inside
`Nullable` are always of these kinds. -/
def Column.nilSafeNested : Column → Bool
  | .nullableCol _ _ => false
  | .lowCardCol _ => false
  | _ => true

/-- The four nested kinds given type-specialized fast loops by the
Nullable decoder. -/
def fourFastNested (c : Column) : Prop :=
  (∃ d, c = .uint64Col d) ∨ (∃ d, c = .int64Col d) ∨
  (∃ d, c = .float64Col d) ∨ (∃ d, c = .stringCol d)

/-- Look up the value stored under a column-name key (an atom) in one
row-oriented record. -/
def rowLookup (t : Term) (name : String) : Option Term :=
  match t with
  | .map ps => (ps.find? fun p =>
      match p.1 with
      | .atom s => s == name
      | _ => false).map Prod.snd
  | _ => none

/-- Modelled from the spec (§8 Equivalence): pivot a RowOriented result —
group by column name across records, in record order — giving, for each
column name, the sequence of that column's values. -/
def pivotRows (names : List String) (rows : List Term) :
    List (String × List Term) :=
  names.map fun n => (n, rows.map fun r => (rowLookup r n).getD oobTerm)

/-- Whether a Map row's backing column is a Tuple column (what the
`kv_tuples->As<ColumnTuple>()` check tests). -/
def Column.isTupleBacking : Column → Bool
  | .tupleCol _ => true
  | _ => false

/-- A byte that is a lowercase hex digit (`0`-`9` or `a`-`f`). -/
def isLowerHexByte (c : Nat) : Bool :=
  (48 ≤ c && c ≤ 57) || (97 ≤ c && c ≤ 102)

/-! ### Helper lemmas -/

theorem range_getD_map_eq {α β : Type} (l : List α) (dflt : α) (f : α → β) :
    (List.range l.length).map (fun i => f (l.getD i dflt)) = l.map f := by
  apply List.ext_getElem
  · simp
  · intro i h1 h2
    have hi : i < l.length := by simpa using h2
    simp [List.getElem?_eq_getElem hi]

theorem hexFixed_length (w n : Nat) : (hexFixed w n).length = w := by
  induction w generalizing n with
  | zero => rfl
  | succ w ih => simp [hexFixed, ih]

theorem isLowerHexByte_hexDigitChar (m : Nat) :
    isLowerHexByte (hexDigitChar (m % 16)) = true := by
  have hall : ∀ k < 16, isLowerHexByte (hexDigitChar k) = true := by decide
  exact hall _ (Nat.mod_lt _ (by omega))

theorem hexFixed_mem (w n : Nat) : ∀ c ∈ hexFixed w n, isLowerHexByte c = true := by
  induction w generalizing n with
  | zero => simp [hexFixed]
  | succ w ih =>
      intro c hc
      simp only [hexFixed, List.mem_append, List.mem_singleton] at hc
      rcases hc with h | h
      · exact ih _ _ h
      · subst h; exact isLowerHexByte_hexDigitChar n

/-! ### The claims -/

/-- C2: no bind operation mutates the SQL template text of a Query; each
bind only registers an encoded value or NULL marker in the Query's
parameter map (so a string value containing SQL text is never concatenated
into the template — with `s` instantiable at `"'; DROP TABLE x; --"`). -/
theorem binds_never_mutate_sql (q : Query) (name : String)
    (u64 f64 f32 : Nat) (i64 i32 u32 ts ds us : Int) (s : String) :
    (query_bind_uint64 q name u64).sql = q.sql ∧
    (query_bind_int64 q name i64).sql = q.sql ∧
    (query_bind_int32 q name i32).sql = q.sql ∧
    (query_bind_uint32 q name u32).sql = q.sql ∧
    (query_bind_float64 q name f64).sql = q.sql ∧
    (query_bind_float32 q name f32).sql = q.sql ∧
    (query_bind_string q name s).sql = q.sql ∧
    (query_bind_datetime q name ts).sql = q.sql ∧
    (query_bind_date q name ds).sql = q.sql ∧
    (query_bind_datetime64 q name us).sql = q.sql ∧
    (query_bind_null q name).sql = q.sql ∧
    (query_bind_uint64 q name u64).params
      = upsertParam q.params name (.enc (toString u64)) ∧
    (query_bind_int64 q name i64).params
      = upsertParam q.params name (.enc (toString i64)) ∧
    (query_bind_int32 q name i32).params
      = upsertParam q.params name (.enc (toString i32)) ∧
    (query_bind_uint32 q name u32).params
      = upsertParam q.params name (.enc (toString u32)) ∧
    (query_bind_float64 q name f64).params
      = upsertParam q.params name (.encFloat64 f64) ∧
    (query_bind_float32 q name f32).params
      = upsertParam q.params name (.encFloat32 f32) ∧
    (query_bind_string q name s).params
      = upsertParam q.params name (.enc s) ∧
    (query_bind_datetime q name ts).params
      = upsertParam q.params name (.enc (toString ts)) ∧
    (query_bind_date q name ds).params
      = upsertParam q.params name (.enc (toString ds)) ∧
    (query_bind_datetime64 q name us).params
      = upsertParam q.params name (.enc (toString us)) ∧
    (query_bind_null q name).params
      = upsertParam q.params name .nullMarker :=
  ⟨rfl, rfl, rfl, rfl, rfl, rfl, rfl, rfl, rfl, rfl, rfl, rfl, rfl, rfl, rfl,
   rfl, rfl, rfl, rfl, rfl, rfl, rfl⟩

/-- C9: `query_bind_int32` and `query_bind_uint32` produce exactly the
same bound Query as `query_bind_int64` on the same name and 64-bit value —
no narrowing, range check or 32-bit cast happens, so out-of-range values
pass through to the decimal-text encoding unmodified. -/
theorem bind_int32_uint32_eq_int64 (q : Query) (name : String) (value : Int) :
    query_bind_int32 q name value = query_bind_int64 q name value ∧
    query_bind_uint32 q name value = query_bind_int64 q name value ∧
    (query_bind_int32 q name value).params
      = upsertParam q.params name (.enc (toString value)) :=
  ⟨rfl, rfl, rfl⟩

/-- C6: UUID decoding formats the two 64-bit halves deterministically as
the canonical 36-character lowercase hyphenated hex string in 8-4-4-4-12
groups; in particular the halves `0x0102030405060708, 0x090A0B0C0D0E0F10`
format to exactly `"01020304-0506-0708-090a-0b0c0d0e0f10"`. -/
theorem uuid_format_canonical :
    (column_to_elixir_list (Column.uuidCol [(0x0102030405060708, 0x090A0B0C0D0E0F10)])
      = .ok [Term.bytes (strBytes "01020304-0506-0708-090a-0b0c0d0e0f10")]) ∧
    ∀ high low : Nat,
      (format_uuid_to_buffer high low).length = 36 ∧
      ∃ g1 g2 g3 g4 g5 : List Nat,
        format_uuid_to_buffer high low
          = g1 ++ [45] ++ g2 ++ [45] ++ g3 ++ [45] ++ g4 ++ [45] ++ g5 ∧
        g1.length = 8 ∧ g2.length = 4 ∧ g3.length = 4 ∧ g4.length = 4 ∧
        g5.length = 12 ∧
        ∀ c ∈ g1 ++ g2 ++ g3 ++ g4 ++ g5, isLowerHexByte c = true := by
  constructor
  · have h : format_uuid_to_buffer 0x0102030405060708 0x090A0B0C0D0E0F10
        = strBytes "01020304-0506-0708-090a-0b0c0d0e0f10" := by decide
    simp only [column_to_elixir_list, List.map_cons, List.map_nil, h]
  · intro high low
    constructor
    · simp [format_uuid_to_buffer, hexFixed_length]
    · refine ⟨hexFixed 8 ((high >>> 32) &&& 0xFFFFFFFF),
        hexFixed 4 ((high >>> 16) &&& 0xFFFF),
        hexFixed 4 (high &&& 0xFFFF),
        hexFixed 4 ((low >>> 48) &&& 0xFFFF),
        hexFixed 12 (low &&& 0xFFFFFFFFFFFF),
        by simp [format_uuid_to_buffer],
        hexFixed_length _ _, hexFixed_length _ _, hexFixed_length _ _,
        hexFixed_length _ _, hexFixed_length _ _, ?_⟩
      intro c hc
      simp only [List.mem_append] at hc
      rcases hc with ((((h | h) | h) | h) | h) <;> exact hexFixed_mem _ _ c h

/-- C7: every Decimal column row decodes (on both the recursive decoder
and the materializer cascade) to the underlying 128-bit unscaled signed
integer narrowed to 64 bits by two's-complement truncation: values within
the signed 64-bit range decode to exactly the unscaled integer, adding any
multiple of `2^64` leaves the decoded value unchanged (silent truncation
of wider magnitudes), the result always lies in the signed 64-bit range,
and the scale is never carried in the decoded value. -/
theorem decimal_narrows_to_int64 (d : List Int) :
    column_to_elixir_list (Column.decimalCol d)
      = .ok (d.map fun v => Term.int (int64OfInt128 v)) ∧
    cascade_column_decode d.length (Column.decimalCol d)
      = .ok (d.map fun v => Term.int (int64OfInt128 v)) ∧
    (∀ v : Int, -(2 ^ 63) ≤ v → v < 2 ^ 63 → int64OfInt128 v = v) ∧
    (∀ v k : Int, int64OfInt128 (v + 2 ^ 64 * k) = int64OfInt128 v) ∧
    (∀ v : Int, -(2 ^ 63) ≤ int64OfInt128 v ∧ int64OfInt128 v < 2 ^ 63) := by
  refine ⟨by simp [column_to_elixir_list], ?_, ?_, ?_, ?_⟩
  · exact congrArg Except.ok
      (range_getD_map_eq d 0 (fun v => Term.int (int64OfInt128 v)))
  · intro v h1 h2
    simp only [int64OfInt128]
    omega
  · intro v k
    have h : (v + 2 ^ 64 * k) % 2 ^ 64 = v % 2 ^ 64 := by omega
    simp only [int64OfInt128, h]
  · intro v
    simp only [int64OfInt128]
    split <;> omega

/-- C7 witness: a decimal whose unscaled value is `2^64 + 5` silently
truncates to `5`; a value within the 64-bit range decodes exactly. -/
theorem decimal_narrows_to_int64_witness :
    column_to_elixir_list (Column.decimalCol [2 ^ 64 + 5])
      = .ok [Term.int (int64OfInt128 (2 ^ 64 + 5))] ∧
    int64OfInt128 (2 ^ 64 + 5) = 5 ∧
    int64OfInt128 5 = 5 := by
  refine ⟨(decimal_narrows_to_int64 [2 ^ 64 + 5]).1, ?_, ?_⟩
  · have h := (decimal_narrows_to_int64 []).2.2.2.1 5 1
    have h5 := (decimal_narrows_to_int64 []).2.2.1 5 (by norm_num) (by norm_num)
    calc int64OfInt128 (2 ^ 64 + 5) = int64OfInt128 (5 + 2 ^ 64 * 1) := by ring_nf
    _ = int64OfInt128 5 := h
    _ = 5 := h5
  · exact (decimal_narrows_to_int64 []).2.2.1 5 (by norm_num) (by norm_num)

/-- C10: if every delivered block has `row_count` 0 (or none arrives),
`client_select` returns the empty list and `client_select_cols` returns an
empty map with no column-name keys at all — names are only captured from
the first block with rows. -/
theorem all_empty_blocks_empty_results (blocks : List Block)
    (h : ∀ b ∈ blocks, b.rowCount = 0) :
    client_select blocks = .ok [] ∧ client_select_cols blocks = .ok [] := by
  constructor
  · have hm : mapME block_to_maps_impl blocks
        = .ok (blocks.map fun _ => ([] : List Term)) :=
      mapME_ok_of_forall (fun b hb => by simp [block_to_maps_impl, h b hb])
    simp [client_select, hm, bind, Except.bind, List.flatten_eq_nil_iff]
  · have hf : foldME select_cols_block ⟨[], [], false⟩ blocks
        = .ok ⟨[], [], false⟩ := by
      induction blocks with
      | nil => rfl
      | cons b bs ih =>
          have hb : select_cols_block ⟨[], [], false⟩ b = .ok ⟨[], [], false⟩ := by
            simp [select_cols_block, h b (List.mem_cons_self b bs)]
          simp only [foldME, hb, bind, Except.bind]
          exact ih (fun x hx => h x (List.mem_cons_of_mem b hx))
    simp [client_select_cols, hf, bind, Except.bind]

/-- C10 witness: a single block holding one zero-length column. -/
theorem all_empty_blocks_empty_results_witness :
    (∀ b ∈ [Block.mk [("a", Column.uint64Col [])]], b.rowCount = 0) ∧
    client_select [Block.mk [("a", Column.uint64Col [])]] = .ok [] ∧
    client_select_cols [Block.mk [("a", Column.uint64Col [])]] = .ok [] := by
  have h : ∀ b ∈ [Block.mk [("a", Column.uint64Col [])]], b.rowCount = 0 := by
    intro b hb
    simp only [List.mem_singleton] at hb
    subst hb
    rfl
  exact ⟨h, (all_empty_blocks_empty_results _ h).1,
    (all_empty_blocks_empty_results _ h).2⟩

/-- C3 (behavior at the failing input): only the recursive nested decoder
raises `UnsupportedType` for a column whose type has no decode branch.
The materializer cascades have no default branch, so a block holding one
unsupported column of one row materializes *successfully*: the row map
binds the column's name to the value of an out-of-bounds vector read, and
the columnar result binds the name to an empty list — no error, no abort. -/
theorem unsupported_column_no_abort :
    column_to_elixir_list (Column.unsupportedCol 1) = .error .unsupportedType ∧
    cascade_column_decode 1 (Column.unsupportedCol 1) = .ok [] ∧
    block_to_maps_impl (Block.mk [("x", Column.unsupportedCol 1)])
      = .ok [Term.map [(Term.atom "x", oobTerm)]] ∧
    client_select [Block.mk [("x", Column.unsupportedCol 1)]]
      = .ok [Term.map [(Term.atom "x", oobTerm)]] ∧
    client_select_cols [Block.mk [("x", Column.unsupportedCol 1)]]
      = .ok [("x", [])] := by
  exact ⟨by simp [column_to_elixir_list], rfl, rfl, rfl, rfl⟩

/-- C8 counterexample: a Map row backed by a *three*-element Tuple is not
the expected two-element Tuple-of-(keys,values) shape, yet decoding does
not substitute an empty Map for it: the first two element columns are
decoded as keys and values and a non-empty map is produced. -/
theorem map_three_tuple_backing_not_empty :
    column_to_elixir_list (Column.mapCol
      [Column.tupleCol
        [Column.stringCol [[97]], Column.stringCol [[98]], Column.stringCol [[99]]]])
      = .ok [Term.map [(Term.bytes [97], Term.bytes [98])]] ∧
    Term.map [(Term.bytes [97], Term.bytes [98])] ≠ Term.map [] := by
  constructor
  · simp [column_to_elixir_list, ctel_map_rows, Column.size, bind, Except.bind]
  · simp

/-- C8 (amended): a Map row whose backing structure is not a Tuple column
at all gets an empty Map substituted and decoding continues without
failing, on the recursive decoder and the materializer cascade alike; a
Tuple backing with extra element columns is not detected — its first two
element columns are decoded as keys and values. -/
theorem map_nontuple_backing_empty_map (rows : List Column)
    (h : ∀ r ∈ rows, r.isTupleBacking = false) :
    column_to_elixir_list (Column.mapCol rows)
      = .ok (rows.map fun _ => Term.map []) ∧
    cascade_column_decode rows.length (Column.mapCol rows)
      = .ok (rows.map fun _ => Term.map []) ∧
    ∀ k v : Column, ∀ rest : List Column,
      decode_map_row (Column.tupleCol (k :: v :: rest))
        = decode_map_row (Column.tupleCol [k, v]) := by
  have hrow : ∀ r : Column, r.isTupleBacking = false →
      decode_map_row r = .ok (Term.map []) := by
    intro r hr
    cases r <;> simp [decode_map_row] <;> simp [Column.isTupleBacking] at hr
  refine ⟨?_, ?_, ?_⟩
  · simp only [column_to_elixir_list]
    induction rows with
    | nil => simp [ctel_map_rows]
    | cons r rest ih =>
        have hr := h r (List.mem_cons_self r rest)
        have hrest := ih (fun x hx => h x (List.mem_cons_of_mem r hx))
        cases r <;>
          simp only [ctel_map_rows, hrest, bind, Except.bind, List.map_cons] <;>
          simp [Column.isTupleBacking] at hr
  · have hm : mapME (fun i => decode_map_row (rows.getD i (.unsupportedCol 0)))
        (List.range rows.length) = .ok ((List.range rows.length).map fun _ => Term.map []) := by
      apply mapME_ok_of_forall
      intro i hi
      have hilt : i < rows.length := List.mem_range.mp hi
      have : rows.getD i (.unsupportedCol 0) ∈ rows := by
        rw [List.getD_eq_getElem rows _ hilt]
        exact List.getElem_mem hilt
      exact hrow _ (h _ this)
    show mapME _ _ = _
    rw [hm]
    simp [List.map_const']
  · intro k v rest
    rfl

/-- C8 witness: a non-Tuple backing gets the empty map; a 3-element Tuple
backing decodes through its first two element columns. -/
theorem map_nontuple_backing_empty_map_witness :
    (∀ r ∈ [Column.uint64Col [7]], r.isTupleBacking = false) ∧
    column_to_elixir_list (Column.mapCol [Column.uint64Col [7]])
      = .ok [Term.map []] ∧
    decode_map_row (Column.tupleCol
        [Column.stringCol [[97]], Column.stringCol [[98]], Column.stringCol [[99]]])
      = decode_map_row (Column.tupleCol
        [Column.stringCol [[97]], Column.stringCol [[98]]]) := by
  have h : ∀ r ∈ [Column.uint64Col [7]], r.isTupleBacking = false := by
    intro r hr
    simp only [List.mem_singleton] at hr
    subst hr
    rfl
  exact ⟨h, (map_nontuple_backing_empty_map _ h).1,
    (map_nontuple_backing_empty_map [] (by simp) ).2.2 _ _ [Column.stringCol [[99]]]⟩

theorem ctel_fallback_eq_cascade_fallback (nulls : List Bool) (nst : Column) :
    ∀ idxs : List Nat,
      ctel_nullable_fallback nulls nst idxs
        = mapME (fun i =>
            if nulls.getD i false then .ok (Term.atom "nil")
            else do
              let l ← column_to_elixir_list (nst.slice i 1)
              match l with
              | h :: _ => .ok h
              | [] => .ok (Term.atom "error")) idxs := by
  intro idxs
  induction idxs with
  | nil => simp [ctel_nullable_fallback, mapME]
  | cons i rest ih =>
      simp only [ctel_nullable_fallback, mapME, ih]
      split
      · simp [bind, Except.bind]
      · cases hctel : column_to_elixir_list (nst.slice i 1) with
        | error e => simp [bind, Except.bind, hctel]
        | ok l => cases l <;> simp [bind, Except.bind, hctel]

/-- C5: for the nested kinds that get type-specialized fast loops (UInt64,
Int64, Float64, String), the fast Nullable loops produce exactly the same
output as the generic fallback that slices one row out of the nested
column and recursively decodes the slice — on the recursive decoder and on
the materializer cascade alike. -/
theorem nullable_fast_eq_fallback (nulls : List Bool) (nested : Column)
    (h : fourFastNested nested) :
    column_to_elixir_list (Column.nullableCol nulls nested)
      = ctel_nullable_fallback nulls nested (List.range nested.size) ∧
    cascade_column_decode nested.size (Column.nullableCol nulls nested)
      = cascade_nullable_fallback nulls nested nested.size := by
  have hbridge : ctel_nullable_fallback nulls nested (List.range nested.size)
      = cascade_nullable_fallback nulls nested nested.size :=
    ctel_fallback_eq_cascade_fallback nulls nested (List.range nested.size)
  rcases h with ⟨d, rfl⟩ | ⟨d, rfl⟩ | ⟨d, rfl⟩ | ⟨d, rfl⟩
  all_goals rw [hbridge]
  case inl =>
    have hfall : cascade_nullable_fallback nulls (Column.uint64Col d)
        (Column.size (Column.uint64Col d))
        = .ok ((List.range d.length).map fun i =>
            if nulls.getD i false then Term.atom "nil"
            else Term.int (Int.ofNat (d.getD i 0))) := by
      apply mapME_ok_of_forall
      intro i hi
      have hilt : i < d.length := List.mem_range.mp hi
      by_cases hn : nulls[i]?.getD false = true
      · simp [hn]
      · have hslice : column_to_elixir_list ((Column.uint64Col d).slice i 1)
            = .ok [Term.int (Int.ofNat (d.getD i 0))] := by
          simp only [Column.slice, List.take_one_drop_eq_of_lt_length hilt]
          simp [column_to_elixir_list, List.getElem?_eq_getElem hilt]
        simp [hn, hslice, bind, Except.bind]
    rw [hfall]
    simp [column_to_elixir_list, ctel_nullable, cascade_column_decode, cascade_nullable, Column.size]
  case inr.inl =>
    have hfall : cascade_nullable_fallback nulls (Column.int64Col d)
        (Column.size (Column.int64Col d))
        = .ok ((List.range d.length).map fun i =>
            if nulls.getD i false then Term.atom "nil"
            else Term.int (d.getD i 0)) := by
      apply mapME_ok_of_forall
      intro i hi
      have hilt : i < d.length := List.mem_range.mp hi
      by_cases hn : nulls[i]?.getD false = true
      · simp [hn]
      · have hslice : column_to_elixir_list ((Column.int64Col d).slice i 1)
            = .ok [Term.int (d.getD i 0)] := by
          simp only [Column.slice, List.take_one_drop_eq_of_lt_length hilt]
          simp [column_to_elixir_list, List.getElem?_eq_getElem hilt]
        simp [hn, hslice, bind, Except.bind]
    rw [hfall]
    simp [column_to_elixir_list, ctel_nullable, cascade_column_decode, cascade_nullable, Column.size]
  case inr.inr.inl =>
    have hfall : cascade_nullable_fallback nulls (Column.float64Col d)
        (Column.size (Column.float64Col d))
        = .ok ((List.range d.length).map fun i =>
            if nulls.getD i false then Term.atom "nil"
            else Term.float (d.getD i 0)) := by
      apply mapME_ok_of_forall
      intro i hi
      have hilt : i < d.length := List.mem_range.mp hi
      by_cases hn : nulls[i]?.getD false = true
      · simp [hn]
      · have hslice : column_to_elixir_list ((Column.float64Col d).slice i 1)
            = .ok [Term.float (d.getD i 0)] := by
          simp only [Column.slice, List.take_one_drop_eq_of_lt_length hilt]
          simp [column_to_elixir_list, List.getElem?_eq_getElem hilt]
        simp [hn, hslice, bind, Except.bind]
    rw [hfall]
    simp [column_to_elixir_list, ctel_nullable, cascade_column_decode, cascade_nullable, Column.size]
  case inr.inr.inr =>
    have hfall : cascade_nullable_fallback nulls (Column.stringCol d)
        (Column.size (Column.stringCol d))
        = .ok ((List.range d.length).map fun i =>
            if nulls.getD i false then Term.atom "nil"
            else Term.bytes (d.getD i [])) := by
      apply mapME_ok_of_forall
      intro i hi
      have hilt : i < d.length := List.mem_range.mp hi
      by_cases hn : nulls[i]?.getD false = true
      · simp [hn]
      · have hslice : column_to_elixir_list ((Column.stringCol d).slice i 1)
            = .ok [Term.bytes (d.getD i [])] := by
          simp only [Column.slice, List.take_one_drop_eq_of_lt_length hilt]
          simp [column_to_elixir_list, List.getElem?_eq_getElem hilt]
        simp [hn, hslice, bind, Except.bind]
    rw [hfall]
    simp [column_to_elixir_list, ctel_nullable, cascade_column_decode, cascade_nullable, Column.size]

/-- C5 witness: fast loop and fallback agree on a concrete Nullable(UInt64)
column with one null row. -/
theorem nullable_fast_eq_fallback_witness :
    fourFastNested (Column.uint64Col [7, 8]) ∧
    column_to_elixir_list
        (Column.nullableCol [false, true] (Column.uint64Col [7, 8]))
      = ctel_nullable_fallback [false, true] (Column.uint64Col [7, 8])
          (List.range (Column.uint64Col [7, 8]).size) := by
  have h : fourFastNested (Column.uint64Col [7, 8]) := Or.inl ⟨_, rfl⟩
  exact ⟨h, (nullable_fast_eq_fallback [false, true] _ h).1⟩

theorem slice_nilSafeNested (c : Column) (off len : Nat) :
    (c.slice off len).nilSafeNested = c.nilSafeNested := by
  cases c <;> rfl

theorem cascade_nullable_eq_ctel (nulls : List Bool) (nst : Column) :
    cascade_nullable nst.size nulls nst = ctel_nullable nulls nst := by
  cases nst <;>
    simp [cascade_nullable, ctel_nullable, Column.size,
      ctel_fallback_eq_cascade_fallback, cascade_nullable_fallback]

theorem ctel_array_rows_mem :
    ∀ {rows : List Column} {l : List Term}, ctel_array_rows rows = .ok l →
      ∀ t ∈ l, ∃ ts, t = Term.list ts := by
  intro rows
  induction rows with
  | nil =>
      intro l h t ht
      simp only [ctel_array_rows] at h
      injection h with h
      subst h
      cases ht
  | cons r rest ih =>
      intro l h t ht
      simp only [ctel_array_rows, bind, Except.bind] at h
      cases h1 : column_to_elixir_list r with
      | error e => rw [h1] at h; cases h
      | ok lr =>
          rw [h1] at h
          cases h2 : ctel_array_rows rest with
          | error e => rw [h2] at h; cases h
          | ok ts =>
              rw [h2] at h
              injection h with h
              subst h
              rcases List.mem_cons.mp ht with rfl | hmem
              · exact ⟨lr, rfl⟩
              · exact ih h2 t hmem

theorem decode_map_row_shape {row : Column} {t : Term}
    (h : decode_map_row row = .ok t) : ∃ ps, t = Term.map ps := by
  cases row <;> simp only [decode_map_row] at h
  case tupleCol es =>
    simp only [bind, Except.bind] at h
    cases h1 : column_to_elixir_list (es.getD 0 (.unsupportedCol 0)) with
    | error e => rw [h1] at h; cases h
    | ok kt =>
        rw [h1] at h
        cases h2 : column_to_elixir_list (es.getD 1 (.unsupportedCol 0)) with
        | error e => rw [h2] at h; cases h
        | ok vt =>
            rw [h2] at h
            injection h with h
            exact ⟨_, h.symm⟩
  all_goals injection h with h
  all_goals exact ⟨_, h.symm⟩

theorem ctel_map_rows_cons (row : Column) (rest : List Column) :
    ctel_map_rows (row :: rest)
      = (do
          let t ← decode_map_row row
          let ts ← ctel_map_rows rest
          Except.ok (t :: ts)) := by
  cases row <;> simp [ctel_map_rows, decode_map_row]

theorem ctel_map_rows_mem :
    ∀ {rows : List Column} {l : List Term}, ctel_map_rows rows = .ok l →
      ∀ t ∈ l, ∃ ps, t = Term.map ps := by
  intro rows
  induction rows with
  | nil =>
      intro l h t ht
      simp only [ctel_map_rows] at h
      injection h with h
      subst h
      cases ht
  | cons row rest ih =>
      intro l h t ht
      rw [ctel_map_rows_cons] at h
      simp only [bind, Except.bind] at h
      cases h1 : decode_map_row row with
      | error e => rw [h1] at h; cases h
      | ok t0 =>
          rw [h1] at h
          cases h2 : ctel_map_rows rest with
          | error e => rw [h2] at h; cases h
          | ok ts =>
              rw [h2] at h
              injection h with h
              subst h
              rcases List.mem_cons.mp ht with rfl | hmem
              · exact decode_map_row_shape h1
              · exact ih h2 t hmem

/-- For a column whose decode can never produce the `nil` atom (anything
but LowCardinality and Nullable), no decoded top-level value is an atom at
all. -/
theorem ctel_ok_mem_not_atom (c : Column) (hsafe : c.nilSafeNested = true)
    (l : List Term) (hok : column_to_elixir_list c = .ok l) :
    ∀ t ∈ l, ∀ s, t ≠ Term.atom s := by
  cases c
  case lowCardCol items => simp [Column.nilSafeNested] at hsafe
  case nullableCol nulls nst => simp [Column.nilSafeNested] at hsafe
  case unsupportedCol n => simp [column_to_elixir_list] at hok
  case arrayCol rows =>
      intro t ht s
      simp only [column_to_elixir_list] at hok
      rcases ctel_array_rows_mem hok t ht with ⟨ts, rfl⟩
      simp
  case mapCol rows =>
      intro t ht s
      simp only [column_to_elixir_list] at hok
      rcases ctel_map_rows_mem hok t ht with ⟨ps, rfl⟩
      simp
  case tupleCol elems =>
      intro t ht s
      simp only [column_to_elixir_list, bind, Except.bind] at hok
      cases h1 : ctel_each elems with
      | error e => rw [h1] at hok; cases hok
      | ok els =>
          rw [h1] at hok
          injection hok with hok
          subst hok
          rcases List.mem_map.mp ht with ⟨i, _, rfl⟩
          simp
  all_goals
    (intro t ht s
     simp only [column_to_elixir_list] at hok
     injection hok with hok
     subst hok
     rcases List.mem_map.mp ht with ⟨x, _, rfl⟩
     simp)

theorem ctel_fallback_null_iff (nulls : List Bool) (nst : Column)
    (hsafe : nst.nilSafeNested = true) (out : List Term)
    (hok : ctel_nullable_fallback nulls nst (List.range nst.size) = .ok out) :
    out.length = nst.size ∧
    ∀ i (hi : i < out.length),
      (out.get ⟨i, hi⟩ = Term.atom "nil" ↔ nulls.getD i false = true) := by
  rw [ctel_fallback_eq_cascade_fallback] at hok
  have hlen : out.length = nst.size := by
    have := mapME_ok_length hok
    simpa using this
  refine ⟨hlen, ?_⟩
  intro i hi
  have hi2 : i < (List.range nst.size).length := by
    simpa using hlen ▸ hi
  have hbody := mapME_ok_getElem hok i hi2 hi
  rw [List.getElem_range] at hbody
  rw [List.get_eq_getElem]
  by_cases hb : nulls.getD i false = true
  · rw [if_pos hb] at hbody
    injection hbody with hbody
    exact iff_of_true hbody.symm hb
  · rw [if_neg hb] at hbody
    simp only [bind, Except.bind] at hbody
    cases hslice : column_to_elixir_list (nst.slice i 1) with
    | error e => rw [hslice] at hbody; cases hbody
    | ok l =>
        rw [hslice] at hbody
        cases l with
        | nil =>
            injection hbody with hbody
            refine iff_of_false ?_ hb
            rw [← hbody]
            simp
        | cons h0 ltail =>
            injection hbody with hbody
            refine iff_of_false ?_ hb
            rw [← hbody]
            have hns : (nst.slice i 1).nilSafeNested = true := by
              rw [slice_nilSafeNested]; exact hsafe
            exact ctel_ok_mem_not_atom _ hns _ hslice h0
              (List.mem_cons_self h0 ltail) "nil"

/-- C4: for every Nullable column whose nested column is of a kind that
cannot itself decode to `nil` (every type ClickHouse admits inside
`Nullable`), and whose null bitmap covers the rows, the decoded value at
row `i` is the atom `nil` **iff** the bitmap marks row `i` null — no other
value variant appears at a marked row — and the materializer cascade
produces the identical output. -/
theorem nullable_null_iff_bitmap (nulls : List Bool) (nested : Column)
    (hsafe : nested.nilSafeNested = true)
    (hlen : nulls.length = nested.size)
    (out : List Term)
    (hok : column_to_elixir_list (Column.nullableCol nulls nested) = .ok out) :
    out.length = nested.size ∧
    cascade_column_decode nested.size (Column.nullableCol nulls nested) = .ok out ∧
    ∀ i (hi : i < out.length) (hi' : i < nulls.length),
      (out.get ⟨i, hi⟩ = Term.atom "nil" ↔ nulls.get ⟨i, hi'⟩ = true) := by
  simp only [column_to_elixir_list] at hok
  have hcas : cascade_column_decode nested.size (Column.nullableCol nulls nested)
      = .ok out := by
    show cascade_nullable nested.size nulls nested = .ok out
    rw [cascade_nullable_eq_ctel]
    exact hok
  have hgetD : ∀ i, i < nulls.length →
      ∀ hi' : i < nulls.length, nulls.getD i false = nulls.get ⟨i, hi'⟩ := by
    intro i hilt hi'
    rw [List.getD_eq_getElem nulls false hilt, List.get_eq_getElem]
  cases nested
  case lowCardCol items => simp [Column.nilSafeNested] at hsafe
  case nullableCol nulls2 nst2 => simp [Column.nilSafeNested] at hsafe
  case uint64Col d =>
      simp only [ctel_nullable] at hok
      injection hok with hok
      subst hok
      refine ⟨by simp [Column.size], hcas, ?_⟩
      intro i hi hi'
      have hilt : i < d.length := by simpa [Column.size] using hi'.trans_le hlen.le
      rw [← hgetD i hi' hi']
      rw [List.get_eq_getElem]
      simp only [List.getElem_map, List.getElem_range,
        List.length_map, List.length_range] at hi ⊢
      by_cases hb : nulls.getD i false = true
      · simp [hb]
      · simp [hb]
  case int64Col d =>
      simp only [ctel_nullable] at hok
      injection hok with hok
      subst hok
      refine ⟨by simp [Column.size], hcas, ?_⟩
      intro i hi hi'
      have hilt : i < d.length := by simpa [Column.size] using hi'.trans_le hlen.le
      rw [← hgetD i hi' hi']
      rw [List.get_eq_getElem]
      simp only [List.getElem_map, List.getElem_range,
        List.length_map, List.length_range] at hi ⊢
      by_cases hb : nulls.getD i false = true
      · simp [hb]
      · simp [hb]
  case float64Col d =>
      simp only [ctel_nullable] at hok
      injection hok with hok
      subst hok
      refine ⟨by simp [Column.size], hcas, ?_⟩
      intro i hi hi'
      have hilt : i < d.length := by simpa [Column.size] using hi'.trans_le hlen.le
      rw [← hgetD i hi' hi']
      rw [List.get_eq_getElem]
      simp only [List.getElem_map, List.getElem_range,
        List.length_map, List.length_range] at hi ⊢
      by_cases hb : nulls.getD i false = true
      · simp [hb]
      · simp [hb]
  case stringCol d =>
      simp only [ctel_nullable] at hok
      injection hok with hok
      subst hok
      refine ⟨by simp [Column.size], hcas, ?_⟩
      intro i hi hi'
      have hilt : i < d.length := by simpa [Column.size] using hi'.trans_le hlen.le
      rw [← hgetD i hi' hi']
      rw [List.get_eq_getElem]
      simp only [List.getElem_map, List.getElem_range,
        List.length_map, List.length_range] at hi ⊢
      by_cases hb : nulls.getD i false = true
      · simp [hb]
      · simp [hb]
  all_goals
   (simp only [ctel_nullable] at hok
    rcases ctel_fallback_null_iff _ _ hsafe _ hok with ⟨hl, hiff⟩
    refine ⟨hl, hcas, ?_⟩
    intro i hi hi'
    rw [← hgetD i hi' hi']
    exact hiff i hi)

/-- C4 witness: `Nullable(UInt64)` with bitmap `[true, false]` and data
`[7, 8]` decodes to `[nil, 8]`; row 0 is `nil` iff marked null. -/
theorem nullable_null_iff_bitmap_witness :
    (Column.uint64Col [7, 8]).nilSafeNested = true ∧
    ([true, false] : List Bool).length = (Column.uint64Col [7, 8]).size ∧
    column_to_elixir_list
        (Column.nullableCol [true, false] (Column.uint64Col [7, 8]))
      = .ok [Term.atom "nil", Term.int 8] ∧
    ([Term.atom "nil", Term.int 8].get ⟨0, by simp⟩ = Term.atom "nil"
      ↔ ([true, false] : List Bool).get ⟨0, by simp⟩ = true) := by
  have hok : column_to_elixir_list
      (Column.nullableCol [true, false] (Column.uint64Col [7, 8]))
      = .ok [Term.atom "nil", Term.int 8] := by
    simp only [column_to_elixir_list, ctel_nullable]
    rfl
  have h := nullable_null_iff_bitmap [true, false] (Column.uint64Col [7, 8])
    rfl rfl _ hok
  exact ⟨rfl, rfl, hok, h.2.2 0 (by simp) (by simp)⟩

theorem cascade_ok_length {rc : Nat} {c : Column} (hsup : c.topSupported = true)
    {l : List Term} (hok : cascade_column_decode rc c = .ok l) :
    l.length = rc := by
  cases c
  case unsupportedCol n => simp [Column.topSupported] at hsup
  case nullableCol nulls nst =>
      simp only [cascade_column_decode] at hok
      cases nst <;>
        simp only [cascade_nullable, cascade_nullable_fallback] at hok <;>
        first
          | (injection hok with hok; subst hok; simp)
          | (have hml := mapME_ok_length hok; simpa using hml)
  case tupleCol elems =>
      simp only [cascade_column_decode, bind, Except.bind] at hok
      cases h1 : mapME column_to_elixir_list elems with
      | error e => rw [h1] at hok; cases hok
      | ok els => rw [h1] at hok; injection hok with hok; subst hok; simp
  all_goals simp only [cascade_column_decode] at hok
  all_goals first
    | (injection hok with hok; subst hok; simp)
    | (have hml := mapME_ok_length hok; simpa using hml)

theorem zip_map_self {α β : Type} (l : List α) (f : α → β) :
    l.zip (l.map f) = l.map fun a => (a, f a) := by
  induction l with
  | nil => rfl
  | cons a l ih => simp [ih]

theorem appendCols_eq_zipWith :
    ∀ {acc dec : List (List Term)}, acc.length = dec.length →
      appendCols acc dec = List.zipWith (· ++ ·) acc dec := by
  intro acc
  induction acc with
  | nil =>
      intro dec h
      cases dec with
      | nil => rfl
      | cons d ds => simp at h
  | cons a as ih =>
      intro dec h
      cases dec with
      | nil => simp at h
      | cons d ds =>
          simp only [appendCols, List.zipWith_cons_cons]
          rw [ih (by simpa using h)]

theorem rowLookup_map_zip :
    ∀ (names : List String) (vals : List Term), names.Nodup →
      vals.length = names.length →
      ∀ (k : Nat) (hk : k < names.length) (hk' : k < vals.length),
        rowLookup (Term.map ((names.map Term.atom).zip vals)) names[k]
          = some vals[k] := by
  intro names
  induction names with
  | nil => intro vals _ _ k hk; exact absurd hk (by simp)
  | cons n ns ih =>
      intro vals hnd hlen k hk hk'
      cases vals with
      | nil => simp at hlen
      | cons v vs =>
          cases k with
          | zero =>
              simp only [List.map_cons, List.zip_cons_cons, List.getElem_cons_zero,
                rowLookup]
              rw [List.find?_cons_of_pos]
              · rfl
              · simp
          | succ k =>
              have hkns : k < ns.length := by simpa using hk
              have hkvs : k < vs.length := by simpa using hk'
              have hne : n ≠ ns[k] := by
                intro he
                exact (List.nodup_cons.mp hnd).1 (he ▸ List.getElem_mem hkns)
              simp only [List.map_cons, List.zip_cons_cons, List.getElem_cons_succ,
                rowLookup]
              rw [List.find?_cons_of_neg]
              · have := ih vs (List.nodup_cons.mp hnd).2 (by simpa using hlen) k hkns hkvs
                simpa [rowLookup] using this
              · simp [hne]

theorem select_cols_fold_pivot (H : List String) (hnd : H.Nodup) :
    ∀ (blocks : List Block),
      (∀ b ∈ blocks, b.rowCount ≠ 0 → b.cols.map Prod.fst = H) →
      (∀ b ∈ blocks, b.rowCount ≠ 0 → ∀ nc ∈ b.cols, nc.2.topSupported = true) →
      ∀ (rowsPre : List Term) (st : ColsAcc),
        st.names = (if rowsPre.isEmpty then [] else H) →
        st.firstBlockDone = !rowsPre.isEmpty →
        st.acc = st.names.map (fun n =>
          rowsPre.map fun r => (rowLookup r n).getD oobTerm) →
        ∀ (perBlock : List (List Term)),
          mapME block_to_maps_impl blocks = .ok perBlock →
          ∃ stF, foldME select_cols_block st blocks = .ok stF ∧
            stF.names = (if (rowsPre ++ perBlock.flatten).isEmpty then [] else H) ∧
            stF.acc = stF.names.map (fun n =>
              (rowsPre ++ perBlock.flatten).map fun r =>
                (rowLookup r n).getD oobTerm) := by
  intro blocks
  induction blocks with
  | nil =>
      intro _ _ rowsPre st hnames hfirst hacc perBlock hok
      simp only [mapME] at hok
      injection hok with hok
      subst hok
      have hnil : rowsPre ++ List.flatten ([] : List (List Term)) = rowsPre := by simp
      rw [hnil]
      exact ⟨st, rfl, hnames, hacc⟩
  | cons b bs ih =>
      intro hH hsup rowsPre st hnames hfirst hacc perBlock hok
      simp only [mapME, bind, Except.bind] at hok
      cases hb : block_to_maps_impl b with
      | error e => rw [hb] at hok; cases hok
      | ok rb =>
          rw [hb] at hok
          cases hbs : mapME block_to_maps_impl bs with
          | error e => rw [hbs] at hok; cases hok
          | ok rbs =>
              rw [hbs] at hok
              injection hok with hok
              subst hok
              have hHbs : ∀ x ∈ bs, x.rowCount ≠ 0 → x.cols.map Prod.fst = H :=
                fun x hx => hH x (List.mem_cons_of_mem b hx)
              have hsupbs : ∀ x ∈ bs, x.rowCount ≠ 0 →
                  ∀ nc ∈ x.cols, nc.2.topSupported = true :=
                fun x hx => hsup x (List.mem_cons_of_mem b hx)
              by_cases hrc : b.rowCount = 0
              · have hrb : rb = [] := by
                  simp only [block_to_maps_impl, if_pos hrc] at hb
                  injection hb with hb
                  exact hb.symm
                subst hrb
                have hstep : select_cols_block st b = .ok st := by
                  simp [select_cols_block, hrc]
                rcases ih hHbs hsupbs rowsPre st hnames hfirst hacc rbs hbs with
                  ⟨stF, h1, h2, h3⟩
                refine ⟨stF, ?_, by simpa using h2, by simpa using h3⟩
                simp only [foldME, hstep, bind, Except.bind]
                exact h1
              · have hHb := hH b (List.mem_cons_self b bs) hrc
                have hsupb := hsup b (List.mem_cons_self b bs) hrc
                simp only [block_to_maps_impl, if_neg hrc, bind, Except.bind] at hb
                cases hdec : mapME (fun nc => cascade_column_decode b.rowCount nc.2)
                    b.cols with
                | error e => rw [hdec] at hb; cases hb
                | ok colData =>
                    rw [hdec] at hb
                    injection hb with hb
                    have hlenH : b.cols.length = H.length := by
                      rw [← hHb]; simp
                    have hcdlen : colData.length = b.cols.length := mapME_ok_length hdec
                    have hcollen : ∀ k (hk : k < colData.length),
                        colData[k].length = b.rowCount := by
                      intro k hk
                      have hkc : k < b.cols.length := hcdlen ▸ hk
                      have hcd := mapME_ok_getElem hdec k hkc hk
                      exact cascade_ok_length
                        (hsupb _ (List.getElem_mem hkc)) hcd
                    have hrbne : rb ≠ [] := by
                      rw [← hb]
                      simp only [ne_eq, List.map_eq_nil_iff, List.range_eq_nil]
                      exact hrc
                    -- each accumulated column equals the lookup column of this
                    -- block's rows
                    have key : ∀ k (hk : k < H.length) (hk' : k < colData.length),
                        colData[k] = rb.map fun r =>
                          (rowLookup r H[k]).getD oobTerm := by
                      intro k hk hk'
                      apply List.ext_getElem
                      · rw [hcollen k hk', ← hb]
                        simp
                      · intro r hr1 hr2
                        have hrrc : r < b.rowCount := by
                          have := hcollen k hk'; omega
                        simp only [List.getElem_map]
                        simp only [← hb, List.getElem_map, List.getElem_range]
                        rw [hHb]
                        have hvlen : (colData.map fun cd => cd.getD r oobTerm).length
                            = H.length := by
                          simp [hcdlen, hlenH]
                        rw [rowLookup_map_zip H _ hnd hvlen k hk (by omega)]
                        simp only [List.getElem_map, Option.getD_some]
                        rw [List.getD_eq_getElem _ _
                          (show r < colData[k].length by omega)]
                    -- the state after this block
                    set st1 : ColsAcc := (if st.firstBlockDone then st
                      else ⟨b.cols.map Prod.fst, b.cols.map fun _ => [], true⟩)
                      with hst1
                    have hstep : select_cols_block st b
                        = .ok { st1 with acc := appendCols st1.acc colData } := by
                      simp only [select_cols_block, if_neg hrc, bind, Except.bind,
                        hdec, hst1]
                    have hst1names : st1.names = H := by
                      rw [hst1]
                      by_cases hfd : st.firstBlockDone
                      · rw [if_pos hfd, hnames]
                        rw [hfd] at hfirst
                        have : rowsPre.isEmpty = false := by
                          cases he : rowsPre.isEmpty
                          · rfl
                          · rw [he] at hfirst; simp at hfirst
                        simp [this]
                      · rw [if_neg hfd]
                        exact hHb
                    have hst1first : st1.firstBlockDone = true := by
                      rw [hst1]
                      by_cases hfd : st.firstBlockDone
                      · simp [hfd]
                      · simp [hfd]
                    have hst1acc : st1.acc = H.map (fun n =>
                        rowsPre.map fun r => (rowLookup r n).getD oobTerm) := by
                      rw [hst1]
                      by_cases hfd : st.firstBlockDone
                      · rw [if_pos hfd]
                        rw [hacc, hnames]
                        rw [hfd] at hfirst
                        have : rowsPre.isEmpty = false := by
                          cases he : rowsPre.isEmpty
                          · rfl
                          · rw [he] at hfirst; simp at hfirst
                        simp [this]
                      · rw [if_neg hfd]
                        have hfd' : st.firstBlockDone = false := by
                          simpa using hfd
                        rw [hfd'] at hfirst
                        have hre : rowsPre.isEmpty = true := by
                          cases he : rowsPre.isEmpty
                          · rw [he] at hfirst; simp at hfirst
                          · rfl
                        have hrpe : rowsPre = [] := List.isEmpty_iff.mp hre
                        subst hrpe
                        show b.cols.map (fun _ => []) = _
                        simp only [List.map_nil]
                        rw [List.map_const', List.map_const', hlenH]
                    have hst1acclen : st1.acc.length = H.length := by
                      rw [hst1acc]; simp
                    have haccnew : appendCols st1.acc colData
                        = H.map (fun n =>
                            (rowsPre ++ rb).map fun r =>
                              (rowLookup r n).getD oobTerm) := by
                      rw [appendCols_eq_zipWith (by rw [hst1acclen, hcdlen, hlenH])]
                      apply List.ext_getElem
                      · simp [hst1acclen, hcdlen, hlenH]
                      · intro k hk1 hk2
                        have hkH : k < H.length := by simpa using hk2
                        have hkcd : k < colData.length := by
                          rw [hcdlen, hlenH]; exact hkH
                        rw [List.getElem_zipWith]
                        simp only [hst1acc, List.getElem_map]
                        rw [key k hkH hkcd]
                        simp [List.map_append]
                    -- invariant for the extended prefix
                    have hne2 : (rowsPre ++ rb).isEmpty = false := by
                      cases hrbc : rb with
                      | nil => exact absurd hrbc hrbne
                      | cons x xs => simp [List.isEmpty_iff]
                    rcases ih hHbs hsupbs (rowsPre ++ rb)
                        { st1 with acc := appendCols st1.acc colData }
                        (by simpa [hne2] using hst1names)
                        (by simpa [hne2] using hst1first)
                        (by simpa [hst1names, hne2] using haccnew)
                        rbs hbs with ⟨stF, h1, h2, h3⟩
                    refine ⟨stF, ?_, ?_, ?_⟩
                    · simp only [foldME, hstep, bind, Except.bind]
                      exact h1
                    · simpa only [List.flatten_cons, List.append_assoc] using h2
                    · simpa only [List.flatten_cons, List.append_assoc] using h3

/-- C1: for every block stream in which the non-empty blocks share one
duplicate-free column header and every column is of a cascade-supported
kind, the row-oriented result of `client_select` and the column-oriented
result of `client_select_cols` describe the same dataset: pivoting the
row-oriented records (grouping by column name across records, in record
order) gives exactly the column-oriented map — same values at every row
index and the same total number of rows per column. -/
theorem row_col_equivalence (blocks : List Block) (H : List String)
    (hnd : H.Nodup)
    (hH : ∀ b ∈ blocks, b.rowCount ≠ 0 → b.cols.map Prod.fst = H)
    (hsup : ∀ b ∈ blocks, b.rowCount ≠ 0 → ∀ nc ∈ b.cols, nc.2.topSupported = true)
    (rows : List Term)
    (hok : client_select blocks = .ok rows) :
    client_select_cols blocks
      = .ok (pivotRows (if rows.isEmpty then [] else H) rows) := by
  simp only [client_select, bind, Except.bind] at hok
  cases hm : mapME block_to_maps_impl blocks with
  | error e => rw [hm] at hok; cases hok
  | ok perBlock =>
      rw [hm] at hok
      injection hok with hok
      subst hok
      rcases select_cols_fold_pivot H hnd blocks hH hsup [] ⟨[], [], false⟩
          rfl rfl rfl perBlock hm with ⟨stF, h1, h2, h3⟩
      simp only [List.nil_append] at h2 h3
      simp only [client_select_cols, bind, Except.bind, h1]
      congr 1
      rw [h3, zip_map_self, h2]
      rfl

/-- C1 witness: a two-block stream over header `["a"]`. -/
theorem row_col_equivalence_witness :
    (["a"] : List String).Nodup ∧
    client_select [Block.mk [("a", Column.uint64Col [1, 2])],
        Block.mk [("a", Column.uint64Col [3])]]
      = .ok [Term.map [(Term.atom "a", Term.int 1)],
             Term.map [(Term.atom "a", Term.int 2)],
             Term.map [(Term.atom "a", Term.int 3)]] ∧
    client_select_cols [Block.mk [("a", Column.uint64Col [1, 2])],
        Block.mk [("a", Column.uint64Col [3])]]
      = .ok (pivotRows
          (if ([Term.map [(Term.atom "a", Term.int 1)],
                Term.map [(Term.atom "a", Term.int 2)],
                Term.map [(Term.atom "a", Term.int 3)]] : List Term).isEmpty
           then [] else ["a"])
          [Term.map [(Term.atom "a", Term.int 1)],
           Term.map [(Term.atom "a", Term.int 2)],
           Term.map [(Term.atom "a", Term.int 3)]]) := by
  refine ⟨by simp, rfl, ?_⟩
  exact row_col_equivalence _ ["a"] (by simp)
    (by intro b hb _; fin_cases hb <;> rfl)
    (by intro b hb _ nc hnc; fin_cases hb <;> fin_cases hnc <;> rfl)
    _ rfl

/-- C6 witness: the formatted buffer at the claim's concrete halves is 36
bytes long. -/
theorem uuid_format_canonical_witness :
    (format_uuid_to_buffer 0x0102030405060708 0x090A0B0C0D0E0F10).length = 36 :=
  (uuid_format_canonical.2 0x0102030405060708 0x090A0B0C0D0E0F10).1
